import Mathlib

/-!
Verification development for the PISA `aeff.hist` stage
(`pisa/stages/aeff/hist.py`).

The stage computes binned effective-area transforms from weighted events
(`_compute_nominal_transforms`), assembles them into named transform
objects (merged or unmerged mode), and rescales the cached nominal
transforms by physics parameters (`_compute_transforms`).

Shallow-embedding conventions:
* Numeric values (numpy float64 arrays and scalars) are modelled as `ℚ`;
  the float constant `np.pi` is modelled as an arbitrary rational
  constant carried in the collaborator record (`Collab.npPi`).
* Flavour/interaction categories (`pisa.utils.flavInt`, a collaborator
  outside the excerpt) are modelled structurally: a `NuFlavInt` is a
  flavour paired with an interaction type, and a `NuFlavIntGroup` is a
  list of such categories; PISA's string-based membership tests become
  list membership/containment tests.
* Collaborator objects (`Events`, `MultiDimBinning.to`, `bin_volumes`,
  `hash_obj`) are opaque functions gathered in a `Collab` record; the
  theorems quantify over them.
* numpy arrays in the rescale phase are modelled as `NpArray`, a pair of
  an identity tag (`ref`) and contents (`data`); every numpy operation
  that allocates a new array yields a fresh tag drawn from a counter, so
  aliasing between arrays is expressible as equality of tags.
-/

namespace PisaAeffHist

/-- Neutrino flavours recognized by the stage's default input names. -/
inductive Flav
  | nue | nuebar | numu | numubar | nutau | nutaubar
deriving DecidableEq

/-- Interaction types (charged current / neutral current). -/
inductive IntTy
  | cc | nc
deriving DecidableEq

/-- A flavour+interaction category, PISA's `NuFlavInt`. -/
structure NuFlavInt where
  flav : Flav
  intTy : IntTy
deriving DecidableEq

/-- A set of categories, PISA's `NuFlavIntGroup` (modelled as a list). -/
abbrev NuFlavIntGroup := List NuFlavInt

/-- `NuFlavIntGroup(flavour_name)`: a bare flavour name expands to both
interaction types of that flavour. -/
def flavGroup (f : Flav) : NuFlavIntGroup :=
  [⟨f, IntTy.cc⟩, ⟨f, IntTy.nc⟩]

/-- PISA's `NuFlavIntGroup.__contains__`: `sub in g` holds when every
category of `sub` belongs to `g`. -/
def groupContains (g sub : NuFlavIntGroup) : Bool :=
  sub.all (fun fi => decide (fi ∈ g))

/-- `len(set(g).intersection(h)) > 0`: the two groups share a category. -/
def intersects (g h : NuFlavIntGroup) : Bool :=
  g.any (fun fi => decide (fi ∈ h))

/-- `g.flavs()`: the flavours of the categories in the group. -/
def flavsOf (g : NuFlavIntGroup) : List Flav :=
  g.map (fun fi => fi.flav)

/-- `NuFlavIntGroup(input_names)`: all categories of a list of flavours. -/
def flavintsOfInputs (l : List Flav) : List NuFlavInt :=
  l.flatMap flavGroup

/-- One named dimension of a binning, with its bin edges. -/
structure Dimension where
  name : String
  bin_edges : List ℚ
deriving DecidableEq

/-- A `MultiDimBinning`: an ordered list of named dimensions. -/
structure MultiDimBinning where
  dims : List Dimension
deriving DecidableEq

/-- The dimension names of a binning (`binning.names`; also what
`dim in binning` membership tests consult). -/
def MultiDimBinning.names (b : MultiDimBinning) : List String :=
  b.dims.map (fun d => d.name)

/-- `binning.bin_edges` with units stripped (`edges.magnitude`). -/
def MultiDimBinning.bin_edges (b : MultiDimBinning) : List (List ℚ) :=
  b.dims.map (fun d => d.bin_edges)

/-- Collaborator operations used by the stage but defined outside the
excerpt (`pisa.utils.hash`, `pisa.core.events`, `pisa.core.binning`,
and the numpy constant `np.pi`).  All are opaque; theorems quantify
over this record. -/
structure Collab where
  /-- `hash_obj`: content hash of the `aeff_weight_file` parameter value. -/
  hash_obj : ℕ → ℕ
  /-- `Events(evts)`: construct an event collection from the parameter value. -/
  eventsCtor : ℕ → ℕ
  /-- `events.histogram(kinds, binning, binning_cols, weights_col, errors)`. -/
  histogram : Option ℕ → NuFlavIntGroup → List (List ℚ) → List String →
      String → Bool → List ℚ
  /-- `MultiDimBinning.to(**units)`: unit conversion of a binning. -/
  toUnits : MultiDimBinning → List (String × Option String) → MultiDimBinning
  /-- `binning.bin_volumes(attach_units=False)`, flattened per bin. -/
  bin_volumes : MultiDimBinning → List ℚ
  /-- The float constant `np.pi`, modelled as an arbitrary rational. -/
  npPi : ℚ

/-- The stage's physics parameters, read in computational units
(`m_as('dimensionless')`, `m_as('sec')`, `.magnitude`). -/
structure ParamSet where
  aeff_weight_file : ℕ
  livetime_s : ℚ
  aeff_scale : ℚ
  nutau_cc_norm : ℚ
deriving DecidableEq

/-- The stage configuration assembled by `hist.__init__`. -/
structure Config where
  particles : String
  transform_groups : List NuFlavIntGroup
  sum_grouped_flavints : Bool
  input_names : List Flav
  output_names : List NuFlavIntGroup
  input_binning : MultiDimBinning
  output_binning : MultiDimBinning
  error_method : Option String
  params : ParamSet
deriving DecidableEq

/-- Mutable stage attributes touched by `load_events`
(`self.events`, `self.events_hash`). -/
structure StageState where
  events : Option ℕ
  events_hash : Option ℕ
deriving DecidableEq

/-- `hist.load_events`: hash the current `aeff_weight_file` value; if the
hash equals the stored one, return unchanged, otherwise load the events
and store the new hash. -/
def load_events (c : Collab) (p : ℕ) (s : StageState) : StageState :=
  let this_hash := c.hash_obj p
  if some this_hash = s.events_hash then s
  else { events := some (c.eventsCtor p), events_hash := some this_hash }

/-- Errors raised by `hist.__init__`. -/
inductive InitError
  /-- `assert particles in ['neutrinos', 'muons']` fails (the spec's
  ConfigurationError for an invalid `particles` value). -/
  | assertionError
  /-- `particles == 'muons'`: `output_names` is never assigned, so the
  first use of it raises `UnboundLocalError` (muons unsupported). -/
  | unboundLocalOutputNames
deriving DecidableEq

/-- The default neutrino input names. -/
def defaultNeutrinoInputs : List Flav :=
  [Flav.nue, Flav.nuebar, Flav.numu, Flav.numubar, Flav.nutau, Flav.nutaubar]

/-- `hist.__init__` (the parts bearing on configuration validation and
name assembly).  `transform_groups` arrives already parsed by the
`flavintGroupsFromString` collaborator; `input_names0 = none` models
passing `input_names=None`. -/
def hist.init (particles : String) (transform_groups : List NuFlavIntGroup)
    (sum_grouped_flavints : Bool) (input_binning output_binning : MultiDimBinning)
    (error_method : Option String) (params : ParamSet)
    (input_names0 : Option (List Flav)) : Except InitError Config :=
  if particles = "neutrinos" ∨ particles = "muons" then
    let input_names : Option (List Flav) :=
      match input_names0 with
      | some l => some l
      | none => if particles = "neutrinos" then some defaultNeutrinoInputs else none
    let output_names : Option (List NuFlavIntGroup) :=
      if particles = "neutrinos" then
        if sum_grouped_flavints then some transform_groups
        else some ((flavintsOfInputs (input_names.getD [])).map (fun fi => [fi]))
      else none
    match output_names with
    | none => Except.error InitError.unboundLocalOutputNames
    | some outs => Except.ok
        { particles := particles
          transform_groups := transform_groups
          sum_grouped_flavints := sum_grouped_flavints
          input_names := input_names.getD []
          output_names := outs
          input_binning := input_binning
          output_binning := output_binning
          error_method := error_method
          params := params }
  else Except.error InitError.assertionError

/-- `comp_units`: the computational units, keyed by the recognized
dimension names (`true_energy`, `true_coszen`, `true_azimuth`). -/
def comp_units : List (String × Option String) :=
  [("true_energy", some "GeV"), ("true_coszen", none), ("true_azimuth", some "rad")]

/-- Errors raised by `hist._compute_nominal_transforms` (Python
`ValueError`; the spec's ValidationError). -/
inductive NominalError
  /-- `'Input binning must contain "true_energy" dimension, but does not.'` -/
  | missingEnergy
  /-- `'Input binning has extra dimension(s): %s' % sorted(excess_dims)`,
  carrying the sorted offending dimension names. -/
  | excessDims (dims : List String)
deriving DecidableEq

/-- `sorted(set(input_binning.names).difference(comp_units.keys()))`. -/
def excess_dims (b : MultiDimBinning) : List String :=
  List.insertionSort (fun a b => a ≤ b)
    ((b.names.filter (fun n => decide (n ∉ comp_units.map Prod.fst))).dedup)

/-- `missing_dims_vol`: starts at 1; multiplied by `2*np.pi` when
`true_azimuth` is absent from the (unit-converted) input binning, and by
`2` when `true_coszen` is absent. -/
def missing_dims_vol (c : Collab) (b : MultiDimBinning) : ℚ :=
  let v : ℚ := 1
  let v := if "true_azimuth" ∈ b.names then v else v * (2 * c.npPi)
  if "true_coszen" ∈ b.names then v else v * 2

/-- A `BinnedTensorTransform`, polymorphic in the representation of its
numpy array (`List ℚ` for plain contents, `NpArray` when array identity
matters). -/
structure BinnedTensorTransform (α : Type) where
  input_names : List Flav
  output_name : NuFlavIntGroup
  input_binning : MultiDimBinning
  output_binning : MultiDimBinning
  xform_array : α
  sum_inputs : Bool
deriving DecidableEq

/-- A `TransformSet`. -/
structure TransformSet (α : Type) where
  transforms : List (BinnedTensorTransform α)
deriving DecidableEq

/-- Lines 209–223: histogram the group's events over the output bin
edges and divide element-wise by `bin_volumes * missing_dims_vol` to
obtain the group's effective-area array. -/
def aeffTransformArray (c : Collab) (cfg : Config) (events : Option ℕ)
    (input_binning output_binning : MultiDimBinning) (g : NuFlavIntGroup) : List ℚ :=
  let aeff_transform := c.histogram events g output_binning.bin_edges
      cfg.input_binning.names "weighted_aeff" cfg.error_method.isSome
  let bin_volumes := c.bin_volumes input_binning
  List.zipWith (fun a v => a / (v * missing_dims_vol c input_binning))
    aeff_transform bin_volumes

/-- Lines 231–273: assemble the transforms for one group from its
effective-area array.  Merged mode (`sum_grouped_flavints`) emits one
transform per declared output name contained in the group, listing every
input name that intersects the group; unmerged mode emits one transform
per (intersecting input name, contained output name) pair. -/
def groupNominalTransforms {α : Type} (cfg : Config) (aeff_transform : α)
    (xform_flavints : NuFlavIntGroup) : List (BinnedTensorTransform α) :=
  if cfg.sum_grouped_flavints then
    let xform_input_names :=
      cfg.input_names.filter (fun i => intersects xform_flavints (flavGroup i))
    (cfg.output_names.filter (fun o => groupContains xform_flavints o)).map
      (fun output_name =>
        { input_names := xform_input_names
          output_name := output_name
          input_binning := cfg.input_binning
          output_binning := cfg.output_binning
          xform_array := aeff_transform
          sum_inputs := cfg.sum_grouped_flavints })
  else
    (cfg.input_names.filter (fun i => intersects xform_flavints (flavGroup i))).flatMap
      (fun input_name =>
        (cfg.output_names.filter (fun o => groupContains xform_flavints o)).map
          (fun output_name =>
            { input_names := [input_name]
              output_name := output_name
              input_binning := cfg.input_binning
              output_binning := cfg.output_binning
              xform_array := aeff_transform
              sum_inputs := cfg.sum_grouped_flavints }))

/-- `input_binning = self.input_binning.to(**in_units)` where `in_units`
keeps only the computational units whose dimension is present. -/
def nominalInputBinning (c : Collab) (cfg : Config) : MultiDimBinning :=
  c.toUnits cfg.input_binning
    (comp_units.filter (fun du => decide (du.1 ∈ cfg.input_binning.names)))

/-- `output_binning = self.output_binning.to(**out_units)`. -/
def nominalOutputBinning (c : Collab) (cfg : Config) : MultiDimBinning :=
  c.toUnits cfg.output_binning
    (comp_units.filter (fun du => decide (du.1 ∈ cfg.output_binning.names)))

/-- `hist._compute_nominal_transforms`: load events, validate the input
binning, convert both binnings to computational units, then build one
effective-area array per transform group and assemble its transforms.
The stage state is threaded explicitly so that the effect of
`load_events` is visible even on the error paths. -/
def _compute_nominal_transforms (c : Collab) (cfg : Config) (s0 : StageState) :
    StageState × Except NominalError (TransformSet (List ℚ)) :=
  let s := load_events c cfg.params.aeff_weight_file s0
  if "true_energy" ∉ cfg.input_binning.names then
    (s, Except.error NominalError.missingEnergy)
  else if excess_dims cfg.input_binning ≠ [] then
    (s, Except.error (NominalError.excessDims (excess_dims cfg.input_binning)))
  else
    (s, Except.ok ⟨cfg.transform_groups.flatMap (fun g =>
      groupNominalTransforms cfg
        (aeffTransformArray c cfg s.events (nominalInputBinning c cfg)
          (nominalOutputBinning c cfg) g) g)⟩)

/-- A numpy array as seen by the rescale phase: an identity tag (`ref`)
plus contents (`data`).  numpy's `array * scalar` allocates a new array,
modelled by drawing a fresh tag from a counter; two arrays alias exactly
when their tags coincide. -/
structure NpArray where
  ref : ℕ
  data : List ℚ
deriving DecidableEq

/-- Errors raised by `hist._compute_transforms`: `transform.input_names[0]`
on an empty input-name list raises `IndexError`. -/
inductive ApplyError
  | indexError
deriving DecidableEq

/-- `transform.output_name in ['nutau_cc', 'nutaubar_cc']`: the string
form of an output name equals one of the two special channel names
exactly when the output group is the corresponding singleton category. -/
def specialChannel (o : NuFlavIntGroup) : Bool :=
  decide (o = [⟨Flav.nutau, IntTy.cc⟩]) || decide (o = [⟨Flav.nutaubar, IntTy.cc⟩])

/-- The inner loop of `hist._compute_transforms` (lines 291–308) for one
group: walk the nominal transforms; on the first one whose first input
name is a flavour of the group and whose output name is contained in the
group, compute the rescaled array (`nominal * aeff_scale * livetime_s`,
then `* nutau_cc_norm` when that transform's output name is a special
channel) — each numpy multiplication allocating a fresh array — and
reuse that same array for every further matching transform of the group.
Evaluating `transform.input_names[0]` on an empty list raises. -/
def rescaleLoop (cfg : Config) (g : NuFlavIntGroup) (aeff? : Option NpArray)
    (cnt : ℕ) : List (BinnedTensorTransform NpArray) →
    Except ApplyError (Option NpArray × ℕ × List (BinnedTensorTransform NpArray))
  | [] => Except.ok (aeff?, cnt, [])
  | t :: ts =>
    match t.input_names with
    | [] => Except.error ApplyError.indexError
    | f :: _ =>
      if f ∈ flavsOf g ∧ groupContains g t.output_name then
        let aeff_cnt : NpArray × ℕ :=
          match aeff? with
          | some a => (a, cnt)
          | none =>
            let a0 : NpArray :=
              ⟨cnt, t.xform_array.data.map
                (fun x => x * (cfg.params.aeff_scale * cfg.params.livetime_s))⟩
            if specialChannel t.output_name then
              (⟨cnt + 1, a0.data.map (fun x => x * cfg.params.nutau_cc_norm)⟩, cnt + 2)
            else (a0, cnt + 1)
        match rescaleLoop cfg g (some aeff_cnt.1) aeff_cnt.2 ts with
        | Except.error e => Except.error e
        | Except.ok (a?, cnt', rest) =>
          Except.ok (a?, cnt',
            { t with xform_array := aeff_cnt.1, sum_inputs := cfg.sum_grouped_flavints } :: rest)
      else rescaleLoop cfg g aeff? cnt ts

/-- The outer loop of `hist._compute_transforms` over the transform
groups, resetting `aeff_transform = None` for each group and
concatenating the emitted transforms. -/
def rescaleGroups (cfg : Config) (nominal : List (BinnedTensorTransform NpArray))
    (cnt : ℕ) : List NuFlavIntGroup →
    Except ApplyError (ℕ × List (BinnedTensorTransform NpArray))
  | [] => Except.ok (cnt, [])
  | g :: gs =>
    match rescaleLoop cfg g none cnt nominal with
    | Except.error e => Except.error e
    | Except.ok (_, cnt', emitted) =>
      match rescaleGroups cfg nominal cnt' gs with
      | Except.error e => Except.error e
      | Except.ok (cnt'', rest) => Except.ok (cnt'', emitted ++ rest)

/-- `hist._compute_transforms`: rescale the cached nominal transforms by
the current parameter values, emitting a new `TransformSet`.  `cnt` is
the allocation counter: every tag already in use is assumed `< cnt`. -/
def _compute_transforms (cfg : Config) (nominal : List (BinnedTensorTransform NpArray))
    (cnt : ℕ) : Except ApplyError (ℕ × TransformSet NpArray) :=
  match rescaleGroups cfg nominal cnt cfg.transform_groups with
  | Except.error e => Except.error e
  | Except.ok (cnt', ts) => Except.ok (cnt', ⟨ts⟩)

/-- The rescale loop's per-transform match test (line 292):
`transform.input_names[0] in flav_names and transform.output_name in
xform_flavints`; `false` when the input-name list is empty (Python
raises there instead). -/
def matchB (g : NuFlavIntGroup) (t : BinnedTensorTransform NpArray) : Bool :=
  match t.input_names with
  | [] => false
  | f :: _ => decide (f ∈ flavsOf g) && groupContains g t.output_name

/-- The array allocated by the rescale loop when it first matches a
transform `t₀` at counter `cnt`: one multiplication by
`aeff_scale * livetime_s`, plus one by `nutau_cc_norm` when `t₀`'s
output name is a special channel. -/
def rescaledArr (cfg : Config) (cnt : ℕ) (t₀ : BinnedTensorTransform NpArray) : NpArray :=
  if specialChannel t₀.output_name then
    ⟨cnt + 1, (t₀.xform_array.data.map
      (fun x => x * (cfg.params.aeff_scale * cfg.params.livetime_s))).map
      (fun x => x * cfg.params.nutau_cc_norm)⟩
  else
    ⟨cnt, t₀.xform_array.data.map
      (fun x => x * (cfg.params.aeff_scale * cfg.params.livetime_s))⟩

/-- The counter after the first-match allocation for `t₀`. -/
def rescaledCnt (cnt : ℕ) (t₀ : BinnedTensorTransform NpArray) : ℕ :=
  if specialChannel t₀.output_name then cnt + 2 else cnt + 1

/-- The output name of the first transform the assembler emits for a
group (array-independent: computed on a dummy array). -/
def firstEmittedOutput (cfg : Config) (g : NuFlavIntGroup) : Option NuFlavIntGroup :=
  ((groupNominalTransforms cfg (0 : ℕ) g).head?).map (fun t => t.output_name)

/-- The data of the array the rescale loop shares across a group: the
nominal data times `aeff_scale * livetime_s`, times `nutau_cc_norm`
exactly when the group's first emitted transform has a special-channel
output name. -/
def rescaledDataOf (cfg : Config) (a : NpArray) (g : NuFlavIntGroup) : List ℚ :=
  let d := a.data.map (fun x => x * (cfg.params.aeff_scale * cfg.params.livetime_s))
  if (firstEmittedOutput cfg g).any specialChannel then
    d.map (fun x => x * cfg.params.nutau_cc_norm)
  else d

/-- The nominal transform list as built by the nominal phase, with one
shared array per group (given by `arrOf`). -/
def nominalOf (cfg : Config) (arrOf : NuFlavIntGroup → NpArray) :
    List (BinnedTensorTransform NpArray) :=
  cfg.transform_groups.flatMap (fun g => groupNominalTransforms cfg (arrOf g) g)

/-- The transform groups are pairwise disjoint (which holds for groups
parsed by `flavintGroupsFromString`, a partition of the category space). -/
def DisjointGroups (l : List NuFlavIntGroup) : Prop :=
  List.Pairwise (fun a b => ∀ fi ∈ a, fi ∉ b) l

/-- The output names are the ones `hist.__init__` assembles: the groups
themselves in merged mode, the singleton categories of the input names
in unmerged mode. -/
def outputsFromInit (cfg : Config) : Prop :=
  cfg.output_names = if cfg.sum_grouped_flavints then cfg.transform_groups
    else (flavintsOfInputs cfg.input_names).map (fun fi => [fi])

/-- The structural fields of a transform (everything except the array). -/
def structureOf {α : Type} (t : BinnedTensorTransform α) :
    List Flav × NuFlavIntGroup × MultiDimBinning × MultiDimBinning × Bool :=
  (t.input_names, t.output_name, t.input_binning, t.output_binning, t.sum_inputs)

/-- Concrete collaborator record for witnesses and counterexamples. -/
def collabW : Collab :=
  { hash_obj := fun n => n
    eventsCtor := fun n => n + 100
    histogram := fun _ _ _ _ _ _ => [1]
    toUnits := fun b _ => b
    bin_volumes := fun _ => [1]
    npPi := 3 }

/-- A one-dimensional energy-only input binning. -/
def binW : MultiDimBinning := ⟨[⟨"true_energy", [1, 10]⟩]⟩

/-- A binning with an unrecognized dimension `true_foo`. -/
def binFoo : MultiDimBinning := ⟨[⟨"true_energy", [1, 10]⟩, ⟨"true_foo", [0, 1]⟩]⟩

/-- Concrete parameters: scale 1, livetime 1 s, `nutau_cc_norm` 2. -/
def paramsW : ParamSet := ⟨0, 1, 1, 2⟩

/-- The group `nutau` (both interaction types), as
`flavintGroupsFromString('nutau')` would produce. -/
def groupNutau : NuFlavIntGroup := [⟨Flav.nutau, IntTy.cc⟩, ⟨Flav.nutau, IntTy.nc⟩]

/-- Unmerged-mode configuration over the single group `nutau` with input
name `nutau`; exactly what `hist.__init__` builds for those arguments. -/
def cfgCex : Config :=
  { particles := "neutrinos"
    transform_groups := [groupNutau]
    sum_grouped_flavints := false
    input_names := [Flav.nutau]
    output_names := [[⟨Flav.nutau, IntTy.cc⟩], [⟨Flav.nutau, IntTy.nc⟩]]
    input_binning := binW
    output_binning := binW
    error_method := none
    params := paramsW }

/-- The group `nue_cc+nuebar_cc`. -/
def groupNueCC : NuFlavIntGroup := [⟨Flav.nue, IntTy.cc⟩, ⟨Flav.nuebar, IntTy.cc⟩]

/-- Merged-mode configuration over the single group `nue_cc+nuebar_cc`
with input names `nue, nuebar`; exactly what `hist.__init__` builds for
those arguments. -/
def cfgMerged : Config :=
  { particles := "neutrinos"
    transform_groups := [groupNueCC]
    sum_grouped_flavints := true
    input_names := [Flav.nue, Flav.nuebar]
    output_names := [groupNueCC]
    input_binning := binW
    output_binning := binW
    error_method := none
    params := paramsW }

/-- A binning lacking the energy dimension. -/
def binNoE : MultiDimBinning := ⟨[⟨"true_coszen", [0, 1]⟩]⟩

/-- `cfgCex` with an input binning lacking `true_energy`. -/
def cfgNoEnergy : Config := { cfgCex with input_binning := binNoE }

/-- `cfgCex` with an input binning containing the unrecognized dimension
`true_foo`. -/
def cfgFoo : Config := { cfgCex with input_binning := binFoo }

/-- The nominal transforms of `cfgCex` with their arrays tagged 0 and 1. -/
def nomCex : List (BinnedTensorTransform NpArray) :=
  [{ input_names := [Flav.nutau], output_name := [⟨Flav.nutau, IntTy.cc⟩]
     input_binning := binW, output_binning := binW
     xform_array := ⟨0, [1/12]⟩, sum_inputs := false },
   { input_names := [Flav.nutau], output_name := [⟨Flav.nutau, IntTy.nc⟩]
     input_binning := binW, output_binning := binW
     xform_array := ⟨1, [1/12]⟩, sum_inputs := false }]

/-- C4: the missing-dimension-volume factor is the product of a factor
`2π` included exactly when `true_azimuth` is absent and a factor `2`
included exactly when `true_coszen` is absent; both absent gives `4π`,
both present gives `1`. -/
theorem missing_dims_vol_characterization (c : Collab) (b : MultiDimBinning) :
    missing_dims_vol c b =
      (if "true_azimuth" ∈ b.names then 1 else 2 * c.npPi) *
      (if "true_coszen" ∈ b.names then 1 else 2) ∧
    ("true_azimuth" ∉ b.names → "true_coszen" ∉ b.names →
      missing_dims_vol c b = 4 * c.npPi) ∧
    ("true_azimuth" ∈ b.names → "true_coszen" ∈ b.names →
      missing_dims_vol c b = 1) := by
  unfold missing_dims_vol
  refine ⟨?_, ?_, ?_⟩ <;> (intros; split_ifs <;> simp_all <;> ring)

/-- Witness for C4 at a concrete energy-only binning: both optional
dimensions absent, so the factor is `4π`. -/
theorem missing_dims_vol_characterization_witness :
    ("true_azimuth" ∉ binW.names ∧ "true_coszen" ∉ binW.names) ∧
      missing_dims_vol collabW binW = 4 * collabW.npPi :=
  ⟨⟨by decide, by decide⟩,
    (missing_dims_vol_characterization collabW binW).2.1 (by decide) (by decide)⟩

/-- C9: `load_events` is gated on the content hash — an equal hash
leaves the stage state (events and stored hash) unchanged; a different
hash replaces the events and stores the new hash. -/
theorem load_events_hash_gate (c : Collab) (p : ℕ) (s : StageState) :
    (some (c.hash_obj p) = s.events_hash → load_events c p s = s) ∧
    (some (c.hash_obj p) ≠ s.events_hash →
      load_events c p s =
        { events := some (c.eventsCtor p), events_hash := some (c.hash_obj p) }) := by
  unfold load_events
  constructor <;> (intro h; simp [h])

/-- Witness for C9: with an identity hash, parameter value 5 against
stored hash 5 leaves the state unchanged, while value 6 reloads. -/
theorem load_events_hash_gate_witness :
    (some (collabW.hash_obj 5) = (⟨none, some 5⟩ : StageState).events_hash ∧
      load_events collabW 5 ⟨none, some 5⟩ = ⟨none, some 5⟩) ∧
    (some (collabW.hash_obj 6) ≠ (⟨none, some 5⟩ : StageState).events_hash ∧
      load_events collabW 6 ⟨none, some 5⟩ = ⟨some 106, some 6⟩) :=
  ⟨⟨by decide, (load_events_hash_gate collabW 5 ⟨none, some 5⟩).1 (by decide)⟩,
   ⟨by decide, (load_events_hash_gate collabW 6 ⟨none, some 5⟩).2 (by decide)⟩⟩

/-- C7: construction fails fast — an `assert` failure (the spec's
ConfigurationError) for a `particles` value outside
{"neutrinos", "muons"}, and an unbound-local failure for "muons"
(muons unsupported). -/
theorem init_fails_fast (particles : String) (tg : List NuFlavIntGroup) (sg : Bool)
    (ib ob : MultiDimBinning) (em : Option String) (ps : ParamSet)
    (inn : Option (List Flav)) :
    (particles ≠ "neutrinos" → particles ≠ "muons" →
      hist.init particles tg sg ib ob em ps inn =
        Except.error InitError.assertionError) ∧
    hist.init "muons" tg sg ib ob em ps inn =
      Except.error InitError.unboundLocalOutputNames := by
  constructor
  · intro h1 h2
    unfold hist.init
    rw [if_neg (not_or.mpr ⟨h1, h2⟩)]
  · unfold hist.init
    simp

/-- Witness for C7 at the concrete value "pions" (and "muons"). -/
theorem init_fails_fast_witness :
    hist.init "pions" [] true binW binW none paramsW none =
      Except.error InitError.assertionError ∧
    hist.init "muons" [] true binW binW none paramsW none =
      Except.error InitError.unboundLocalOutputNames :=
  ⟨(init_fails_fast "pions" [] true binW binW none paramsW none).1
      (by decide) (by decide),
   (init_fails_fast "muons" [] true binW binW none paramsW none).2⟩

/-- C10: on an invalid input binning the nominal computation still ran
`load_events` first — the resulting stage state is exactly the
post-`load_events` state even though the computation returns an error. -/
theorem nominal_state_updated_on_invalid_binning (c : Collab) (cfg : Config)
    (s0 : StageState)
    (hinvalid : "true_energy" ∉ cfg.input_binning.names ∨
      excess_dims cfg.input_binning ≠ []) :
    (_compute_nominal_transforms c cfg s0).1 =
      load_events c cfg.params.aeff_weight_file s0 ∧
    ∃ e, (_compute_nominal_transforms c cfg s0).2 = Except.error e := by
  constructor
  · unfold _compute_nominal_transforms
    split_ifs <;> rfl
  · by_cases h1 : "true_energy" ∉ cfg.input_binning.names
    · refine ⟨NominalError.missingEnergy, ?_⟩
      unfold _compute_nominal_transforms
      rw [if_pos h1]
    · have h2 : excess_dims cfg.input_binning ≠ [] := by
        rcases hinvalid with h | h
        · exact absurd h h1
        · exact h
      refine ⟨NominalError.excessDims (excess_dims cfg.input_binning), ?_⟩
      unfold _compute_nominal_transforms
      rw [if_neg h1, if_pos h2]

/-- Witness for C10: with a coszen-only binning the computation fails
but the events and hash have been updated by `load_events`. -/
theorem nominal_state_updated_on_invalid_binning_witness :
    ("true_energy" ∉ cfgNoEnergy.input_binning.names ∨
      excess_dims cfgNoEnergy.input_binning ≠ []) ∧
    ((_compute_nominal_transforms collabW cfgNoEnergy ⟨none, none⟩).1 =
      load_events collabW cfgNoEnergy.params.aeff_weight_file ⟨none, none⟩ ∧
     ∃ e, (_compute_nominal_transforms collabW cfgNoEnergy ⟨none, none⟩).2 =
      Except.error e) :=
  ⟨Or.inl (by decide),
   nominal_state_updated_on_invalid_binning collabW cfgNoEnergy ⟨none, none⟩
     (Or.inl (by decide))⟩

/-- C6: the nominal computation validates the input binning before any
histogram is built (the result does not depend on the histogram
collaborator): missing `true_energy` raises its error; an unrecognized
dimension raises an error enumerating exactly the sorted offending
dimension names. -/
theorem nominal_binning_validation (c : Collab) (cfg : Config) (s0 : StageState)
    (hfun : Option ℕ → NuFlavIntGroup → List (List ℚ) → List String →
      String → Bool → List ℚ) :
    ("true_energy" ∉ cfg.input_binning.names →
      (_compute_nominal_transforms { c with histogram := hfun } cfg s0).2 =
        Except.error NominalError.missingEnergy) ∧
    ("true_energy" ∈ cfg.input_binning.names → excess_dims cfg.input_binning ≠ [] →
      (_compute_nominal_transforms { c with histogram := hfun } cfg s0).2 =
        Except.error (NominalError.excessDims (excess_dims cfg.input_binning))) ∧
    (∀ n, n ∈ excess_dims cfg.input_binning ↔
      n ∈ cfg.input_binning.names ∧
        n ∉ ["true_energy", "true_coszen", "true_azimuth"]) := by
  refine ⟨?_, ?_, ?_⟩
  · intro h
    unfold _compute_nominal_transforms
    rw [if_pos h]
  · intro h1 h2
    unfold _compute_nominal_transforms
    rw [if_neg (by simpa using h1), if_pos h2]
  · intro n
    unfold excess_dims
    rw [List.mem_insertionSort, List.mem_dedup, List.mem_filter]
    simp [comp_units]

/-- Witness for C6 at a binning with the unrecognized dimension
`true_foo`: the error carries `["true_foo"]` regardless of the
histogram collaborator. -/
theorem nominal_binning_validation_witness :
    ("true_energy" ∈ cfgFoo.input_binning.names ∧
      excess_dims cfgFoo.input_binning ≠ []) ∧
    (_compute_nominal_transforms
        { collabW with histogram := fun _ _ _ _ _ _ => [7] } cfgFoo ⟨none, none⟩).2 =
      Except.error (NominalError.excessDims (excess_dims cfgFoo.input_binning)) :=
  ⟨⟨by decide, by decide⟩,
   (nominal_binning_validation collabW cfgFoo ⟨none, none⟩
      (fun _ _ _ _ _ _ => [7])).2.1 (by decide) (by decide)⟩

lemma groupContains_iff {g o : NuFlavIntGroup} :
    groupContains g o = true ↔ ∀ fi ∈ o, fi ∈ g := by
  simp [groupContains]

lemma intersects_iff {g h : NuFlavIntGroup} :
    intersects g h = true ↔ ∃ fi ∈ g, fi ∈ h := by
  simp [intersects]

lemma mem_flavGroup_flav {fi : NuFlavInt} {i : Flav} (h : fi ∈ flavGroup i) :
    fi.flav = i := by
  simp [flavGroup] at h
  rcases h with rfl | rfl <;> rfl

lemma flav_mem_of_intersects {g : NuFlavIntGroup} {i : Flav}
    (h : intersects g (flavGroup i) = true) : i ∈ flavsOf g := by
  rcases intersects_iff.mp h with ⟨fi, hfi, hmem⟩
  have hf := mem_flavGroup_flav hmem
  exact hf ▸ List.mem_map_of_mem _ hfi

/-- With pairwise-disjoint, non-empty groups, the only declared group
contained in `g` is `g` itself. -/
lemma filter_contains_eq_singleton {l : List NuFlavIntGroup} {g : NuFlavIntGroup}
    (hg : g ∈ l) (hne : ∀ h ∈ l, h ≠ []) (hdisj : DisjointGroups l) :
    l.filter (fun o => groupContains g o) = [g] := by
  induction l with
  | nil => cases hg
  | cons h t ih =>
    rcases List.pairwise_cons.mp hdisj with ⟨hd, htl⟩
    rcases List.mem_cons.mp hg with rfl | hgt
    · rw [List.filter_cons, if_pos (groupContains_iff.mpr (fun fi hfi => hfi))]
      have hnil : t.filter (fun o => groupContains g o) = [] := by
        rw [List.filter_eq_nil_iff]
        intro o ho hcon
        rcases List.exists_mem_of_ne_nil o (hne o (List.mem_cons_of_mem _ ho)) with ⟨fi, hfi⟩
        exact hd o ho fi (groupContains_iff.mp hcon fi hfi) hfi
      rw [hnil]
    · have hno : groupContains g h = false := by
        by_contra hx
        have hcon := groupContains_iff.mp (by simpa using hx)
        rcases List.exists_mem_of_ne_nil h (hne h (List.mem_cons_self h t)) with ⟨fi, hfi⟩
        exact hd g hgt fi hfi (hcon fi hfi)
      rw [List.filter_cons, if_neg (by simp [hno])]
      exact ih hgt (fun o ho => hne o (List.mem_cons_of_mem _ ho)) htl

/-- C2: in merged mode with the output names `hist.__init__` builds and
pairwise-disjoint non-empty groups, the assembler emits exactly one
transform for the group: input names are the declared inputs whose
categories intersect the group, the output name is the group itself, the
array is the group's shared array, and the summing flag is set. -/
theorem merged_mode_assembly {α : Type} (cfg : Config) (A : α) (g : NuFlavIntGroup)
    (hsum : cfg.sum_grouped_flavints = true)
    (hout : outputsFromInit cfg)
    (hg : g ∈ cfg.transform_groups)
    (hne : ∀ h ∈ cfg.transform_groups, h ≠ [])
    (hdisj : DisjointGroups cfg.transform_groups) :
    groupNominalTransforms cfg A g =
      [{ input_names := cfg.input_names.filter (fun i => intersects g (flavGroup i))
         output_name := g
         input_binning := cfg.input_binning
         output_binning := cfg.output_binning
         xform_array := A
         sum_inputs := true }] := by
  have houtn : cfg.output_names = cfg.transform_groups := by
    rw [outputsFromInit] at hout
    rw [hout, if_pos hsum]
  unfold groupNominalTransforms
  rw [if_pos hsum, houtn, filter_contains_eq_singleton hg hne hdisj]
  simp [hsum]

/-- Witness for C2: the group `nue_cc+nuebar_cc` with inputs
`nue, nuebar` yields a single summing transform listing both inputs. -/
theorem merged_mode_assembly_witness :
    (cfgMerged.sum_grouped_flavints = true ∧ outputsFromInit cfgMerged ∧
      groupNueCC ∈ cfgMerged.transform_groups) ∧
    groupNominalTransforms cfgMerged ([1] : List ℚ) groupNueCC =
      [{ input_names := [Flav.nue, Flav.nuebar]
         output_name := groupNueCC
         input_binning := binW
         output_binning := binW
         xform_array := [1]
         sum_inputs := true }] :=
  ⟨⟨by decide, by unfold outputsFromInit; decide, by decide⟩,
   (merged_mode_assembly cfgMerged ([1] : List ℚ) groupNueCC (by decide)
      (by unfold outputsFromInit; decide) (by decide) (by decide)
      (by unfold DisjointGroups; decide)).trans (by decide)⟩

lemma nodup_flavintsOfInputs {l : List Flav} (h : l.Nodup) :
    (flavintsOfInputs l).Nodup := by
  unfold flavintsOfInputs
  rw [List.nodup_flatMap]
  refine ⟨fun i _ => by simp [flavGroup], ?_⟩
  refine h.imp_of_mem ?_
  intro a b _ _ hab
  intro fi hfa hfb
  exact hab ((mem_flavGroup_flav hfa).symm.trans (mem_flavGroup_flav hfb))

/-- C3: in unmerged mode the assembler emits exactly one non-summing
transform per (intersecting input name, contained output name) pair,
each carrying that single input name and the group's shared array. -/
theorem unmerged_mode_assembly {α : Type} (cfg : Config) (A : α) (g : NuFlavIntGroup)
    (hsum : cfg.sum_grouped_flavints = false)
    (hout : outputsFromInit cfg)
    (hni : cfg.input_names.Nodup) :
    ((groupNominalTransforms cfg A g).map
        (fun t => (t.input_names, t.output_name))).Nodup ∧
    (∀ (i : Flav) (o : NuFlavIntGroup),
      ([i], o) ∈ (groupNominalTransforms cfg A g).map
          (fun t => (t.input_names, t.output_name)) ↔
        (i ∈ cfg.input_names ∧ intersects g (flavGroup i) = true ∧
         o ∈ cfg.output_names ∧ groupContains g o = true)) ∧
    (∀ t ∈ groupNominalTransforms cfg A g,
      t.xform_array = A ∧ t.sum_inputs = false ∧ t.input_names.length = 1) := by
  have houtn : cfg.output_names =
      (flavintsOfInputs cfg.input_names).map (fun fi => [fi]) := by
    rw [outputsFromInit] at hout
    rw [hout, if_neg (by simp [hsum])]
  have hemit : groupNominalTransforms cfg A g =
      (cfg.input_names.filter (fun i => intersects g (flavGroup i))).flatMap
        (fun input_name =>
          (cfg.output_names.filter (fun o => groupContains g o)).map
            (fun output_name =>
              { input_names := [input_name]
                output_name := output_name
                input_binning := cfg.input_binning
                output_binning := cfg.output_binning
                xform_array := A
                sum_inputs := cfg.sum_grouped_flavints })) := by
    unfold groupNominalTransforms
    rw [if_neg (by simp [hsum])]
  have hOnodup : (cfg.output_names.filter (fun o => groupContains g o)).Nodup := by
    refine List.Nodup.filter _ ?_
    rw [houtn]
    exact (nodup_flavintsOfInputs hni).map (by intro a b hab; simpa using hab)
  refine ⟨?_, ?_, ?_⟩
  · rw [hemit, List.map_flatMap]
    rw [List.nodup_flatMap]
    constructor
    · intro i _
      rw [List.map_map]
      refine hOnodup.map ?_
      intro a b hab
      simpa using hab
    · refine ((hni.filter _).imp_of_mem ?_)
      intro a b _ _ hab
      intro x hxa hxb
      simp only [List.map_map, List.mem_map, Function.comp_apply] at hxa hxb
      rcases hxa with ⟨o, _, rfl⟩
      rcases hxb with ⟨o', _, hx⟩
      have hba : b = a := by simpa using congrArg Prod.fst hx
      exact hab hba.symm
  · intro i o
    rw [hemit, List.map_flatMap]
    constructor
    · intro hmem
      rcases List.mem_flatMap.mp hmem with ⟨i', hi', hin⟩
      rw [List.map_map] at hin
      rcases List.mem_map.mp hin with ⟨o', ho', heq⟩
      obtain ⟨hi1, hi2⟩ := List.mem_filter.mp hi'
      obtain ⟨ho1, ho2⟩ := List.mem_filter.mp ho'
      have hii : i' = i := by simpa using congrArg Prod.fst heq
      have hoo : o' = o := by simpa using congrArg Prod.snd heq
      subst hii; subst hoo
      exact ⟨hi1, by simpa using hi2, ho1, ho2⟩
    · rintro ⟨hi1, hi2, ho1, ho2⟩
      refine List.mem_flatMap.mpr ⟨i, List.mem_filter.mpr ⟨hi1, by simpa using hi2⟩, ?_⟩
      rw [List.map_map]
      exact List.mem_map.mpr ⟨o, List.mem_filter.mpr ⟨ho1, ho2⟩, rfl⟩
  · intro t ht
    rw [hemit] at ht
    rcases List.mem_flatMap.mp ht with ⟨i', _, hin⟩
    rcases List.mem_map.mp hin with ⟨o', _, rfl⟩
    exact ⟨rfl, hsum, rfl⟩

/-- Witness for C3 at the unmerged `nutau` configuration: the pair
(input `nutau`, output `nutau_nc`) is emitted exactly when it intersects
and is contained in the group. -/
theorem unmerged_mode_assembly_witness :
    (cfgCex.sum_grouped_flavints = false ∧ outputsFromInit cfgCex ∧
      cfgCex.input_names.Nodup) ∧
    (([Flav.nutau], [⟨Flav.nutau, IntTy.nc⟩]) ∈
      (groupNominalTransforms cfgCex ([1/12] : List ℚ) groupNutau).map
        (fun t => (t.input_names, t.output_name)) ↔
      (Flav.nutau ∈ cfgCex.input_names ∧
       intersects groupNutau (flavGroup Flav.nutau) = true ∧
       [⟨Flav.nutau, IntTy.nc⟩] ∈ cfgCex.output_names ∧
       groupContains groupNutau [⟨Flav.nutau, IntTy.nc⟩] = true)) :=
  ⟨⟨by decide, by unfold outputsFromInit; decide, by decide⟩,
   (unmerged_mode_assembly cfgCex ([1/12] : List ℚ) groupNutau (by decide)
      (by unfold outputsFromInit; decide)
      (by decide)).2.1 Flav.nutau [⟨Flav.nutau, IntTy.nc⟩]⟩

lemma xform_array_of_mem {α : Type} {cfg : Config} {A : α} {g : NuFlavIntGroup}
    {t : BinnedTensorTransform α} (ht : t ∈ groupNominalTransforms cfg A g) :
    t.xform_array = A := by
  unfold groupNominalTransforms at ht
  split at ht
  · rcases List.mem_map.mp ht with ⟨o, _, rfl⟩
    rfl
  · rcases List.mem_flatMap.mp ht with ⟨i, _, hin⟩
    rcases List.mem_map.mp hin with ⟨o, _, rfl⟩
    rfl

/-- C5: on a valid input binning the nominal computation succeeds; its
transform list is assembled group-by-group from the per-group
effective-area array, which is exactly the raw weighted histogram
divided element-wise by (per-bin volumes of the canonicalized input
binning × the missing-dimension-volume factor); and every transform
emitted for a group carries that group's array. -/
theorem nominal_effective_area (c : Collab) (cfg : Config) (s0 : StageState)
    (henergy : "true_energy" ∈ cfg.input_binning.names)
    (hexcess : excess_dims cfg.input_binning = []) :
    ∃ ts : TransformSet (List ℚ),
      (_compute_nominal_transforms c cfg s0).2 = Except.ok ts ∧
      ts.transforms = cfg.transform_groups.flatMap (fun g =>
        groupNominalTransforms cfg
          (aeffTransformArray c cfg
            (load_events c cfg.params.aeff_weight_file s0).events
            (nominalInputBinning c cfg) (nominalOutputBinning c cfg) g) g) ∧
      (∀ (g : NuFlavIntGroup) (ev : Option ℕ),
        aeffTransformArray c cfg ev (nominalInputBinning c cfg)
            (nominalOutputBinning c cfg) g =
          List.zipWith
            (fun a v => a / (v * missing_dims_vol c (nominalInputBinning c cfg)))
            (c.histogram ev g (nominalOutputBinning c cfg).bin_edges
              cfg.input_binning.names "weighted_aeff" cfg.error_method.isSome)
            (c.bin_volumes (nominalInputBinning c cfg))) ∧
      (∀ (g : NuFlavIntGroup) (A : List ℚ),
        ∀ t ∈ groupNominalTransforms cfg A g, t.xform_array = A) := by
  refine ⟨_, ?_, rfl, fun g ev => rfl, fun g A t ht => xform_array_of_mem ht⟩
  unfold _compute_nominal_transforms
  rw [if_neg (by simpa using henergy), if_neg (by simpa using hexcess)]
  rfl

/-- Witness for C5 at the concrete unmerged `nutau` configuration. -/
theorem nominal_effective_area_witness :
    ("true_energy" ∈ cfgCex.input_binning.names ∧
      excess_dims cfgCex.input_binning = []) ∧
    ∃ ts : TransformSet (List ℚ),
      (_compute_nominal_transforms collabW cfgCex ⟨none, none⟩).2 = Except.ok ts ∧
      ts.transforms = cfgCex.transform_groups.flatMap (fun g =>
        groupNominalTransforms cfgCex
          (aeffTransformArray collabW cfgCex
            (load_events collabW cfgCex.params.aeff_weight_file ⟨none, none⟩).events
            (nominalInputBinning collabW cfgCex)
            (nominalOutputBinning collabW cfgCex) g) g) ∧
      (∀ (g : NuFlavIntGroup) (ev : Option ℕ),
        aeffTransformArray collabW cfgCex ev (nominalInputBinning collabW cfgCex)
            (nominalOutputBinning collabW cfgCex) g =
          List.zipWith
            (fun a v => a /
              (v * missing_dims_vol collabW (nominalInputBinning collabW cfgCex)))
            (collabW.histogram ev g (nominalOutputBinning collabW cfgCex).bin_edges
              cfgCex.input_binning.names "weighted_aeff" cfgCex.error_method.isSome)
            (collabW.bin_volumes (nominalInputBinning collabW cfgCex))) ∧
      (∀ (g : NuFlavIntGroup) (A : List ℚ),
        ∀ t ∈ groupNominalTransforms cfgCex A g, t.xform_array = A) :=
  ⟨⟨by decide, by decide⟩,
   nominal_effective_area collabW cfgCex ⟨none, none⟩ (by decide) (by decide)⟩

lemma matchB_eq_true_iff {g : NuFlavIntGroup} {t : BinnedTensorTransform NpArray}
    {f : Flav} {rest : List Flav} (ht : t.input_names = f :: rest) :
    matchB g t = true ↔ (f ∈ flavsOf g ∧ groupContains g t.output_name = true) := by
  unfold matchB
  rw [ht]
  simp

/-- Once the shared array exists, the rescale loop emits one copy of it
per matching transform and allocates nothing further. -/
lemma rescaleLoop_some (cfg : Config) (g : NuFlavIntGroup) (a : NpArray) (cnt : ℕ)
    {l : List (BinnedTensorTransform NpArray)} (h : ∀ t ∈ l, t.input_names ≠ []) :
    rescaleLoop cfg g (some a) cnt l =
      Except.ok (some a, cnt, (l.filter (matchB g)).map
        (fun t => { t with xform_array := a, sum_inputs := cfg.sum_grouped_flavints })) := by
  induction l with
  | nil => rfl
  | cons t ts ih =>
    have hts : ∀ u ∈ ts, u.input_names ≠ [] :=
      fun u hu => h u (List.mem_cons_of_mem _ hu)
    cases ht : t.input_names with
    | nil => exact absurd ht (h t (List.mem_cons_self t ts))
    | cons f rest =>
      by_cases hc : f ∈ flavsOf g ∧ groupContains g t.output_name = true
      · have hm : matchB g t = true := (matchB_eq_true_iff ht).mpr hc
        simp only [rescaleLoop, ht, if_pos hc, ih hts,
          List.filter_cons_of_pos hm, List.map_cons]
      · have hm : ¬ matchB g t = true := fun hx =>
          hc ((matchB_eq_true_iff ht).mp hx)
        simp only [rescaleLoop, ht, if_neg hc, ih hts,
          List.filter_cons_of_neg hm]

/-- The first-match allocation equals `rescaledArr`/`rescaledCnt`. -/
lemma first_alloc_eq (cfg : Config) (cnt : ℕ) (t : BinnedTensorTransform NpArray) :
    (if specialChannel t.output_name then
      (⟨cnt + 1, (t.xform_array.data.map
          (fun x => x * (cfg.params.aeff_scale * cfg.params.livetime_s))).map
          (fun x => x * cfg.params.nutau_cc_norm)⟩, cnt + 2)
     else (⟨cnt, t.xform_array.data.map
          (fun x => x * (cfg.params.aeff_scale * cfg.params.livetime_s))⟩, cnt + 1)) =
    ((rescaledArr cfg cnt t, rescaledCnt cnt t) : NpArray × ℕ) := by
  unfold rescaledArr rescaledCnt
  split_ifs <;> rfl

/-- With no shared array yet and no matching transform, the loop emits
nothing and leaves the counter alone. -/
lemma rescaleLoop_none_nil (cfg : Config) (g : NuFlavIntGroup) (cnt : ℕ)
    {l : List (BinnedTensorTransform NpArray)} (h : ∀ t ∈ l, t.input_names ≠ [])
    (hF : l.filter (matchB g) = []) :
    rescaleLoop cfg g none cnt l = Except.ok (none, cnt, []) := by
  induction l with
  | nil => rfl
  | cons t ts ih =>
    have hts : ∀ u ∈ ts, u.input_names ≠ [] :=
      fun u hu => h u (List.mem_cons_of_mem _ hu)
    cases ht : t.input_names with
    | nil => exact absurd ht (h t (List.mem_cons_self t ts))
    | cons f rest =>
      by_cases hc : f ∈ flavsOf g ∧ groupContains g t.output_name = true
      · rw [List.filter_cons_of_pos ((matchB_eq_true_iff ht).mpr hc)] at hF
        exact absurd hF (List.cons_ne_nil _ _)
      · have hm : ¬ matchB g t = true := fun hx =>
          hc ((matchB_eq_true_iff ht).mp hx)
        rw [List.filter_cons_of_neg hm] at hF
        simp only [rescaleLoop, ht, if_neg hc]
        exact ih hts hF

/-- With no shared array yet and a first matching transform `t₀`, the
loop allocates the rescaled array from `t₀` (including the special
channel factor exactly when `t₀`'s output name is special) and stamps
that same array onto every matching transform. -/
lemma rescaleLoop_none_cons (cfg : Config) (g : NuFlavIntGroup) (cnt : ℕ)
    {l : List (BinnedTensorTransform NpArray)} (h : ∀ t ∈ l, t.input_names ≠ [])
    {t₀ : BinnedTensorTransform NpArray} {F : List (BinnedTensorTransform NpArray)}
    (hF : l.filter (matchB g) = t₀ :: F) :
    rescaleLoop cfg g none cnt l =
      Except.ok (some (rescaledArr cfg cnt t₀), rescaledCnt cnt t₀,
        (l.filter (matchB g)).map
          (fun t => { t with xform_array := rescaledArr cfg cnt t₀,
                             sum_inputs := cfg.sum_grouped_flavints })) := by
  induction l with
  | nil => simp at hF
  | cons t ts ih =>
    have hts : ∀ u ∈ ts, u.input_names ≠ [] :=
      fun u hu => h u (List.mem_cons_of_mem _ hu)
    cases ht : t.input_names with
    | nil => exact absurd ht (h t (List.mem_cons_self t ts))
    | cons f rest =>
      by_cases hc : f ∈ flavsOf g ∧ groupContains g t.output_name = true
      · have hm : matchB g t = true := (matchB_eq_true_iff ht).mpr hc
        rw [List.filter_cons_of_pos hm] at hF
        injection hF with h1 h2
        subst h1
        simp only [rescaleLoop, ht, if_pos hc, first_alloc_eq,
          rescaleLoop_some cfg g _ _ hts, List.filter_cons_of_pos hm, List.map_cons]
      · have hm : ¬ matchB g t = true := fun hx =>
          hc ((matchB_eq_true_iff ht).mp hx)
        rw [List.filter_cons_of_neg hm] at hF
        simp only [rescaleLoop, ht, if_neg hc, List.filter_cons_of_neg hm]
        exact ih hts hF

lemma disjoint_of_mem {l : List NuFlavIntGroup} (hdisj : DisjointGroups l)
    {g g' : NuFlavIntGroup} (hg : g ∈ l) (hg' : g' ∈ l) (hne : g ≠ g') :
    ∀ fi ∈ g, fi ∉ g' := by
  have hsymm : Symmetric (fun a b : NuFlavIntGroup => ∀ fi ∈ a, fi ∉ b) := by
    intro a b hab fi hfb hfa
    exact hab fi hfa hfb
  exact hdisj.forall hsymm hg hg' hne

lemma nodup_of_disjoint {l : List NuFlavIntGroup}
    (hne : ∀ h ∈ l, h ≠ []) (hdisj : DisjointGroups l) : l.Nodup := by
  refine hdisj.imp_of_mem ?_
  intro a b ha _ hab
  intro hEq
  subst hEq
  rcases List.exists_mem_of_ne_nil a (hne a ha) with ⟨fi, hfi⟩
  exact hab fi hfi hfi

/-- Replacing the array (and restamping the summing flag the assembler
already used) turns the group's block for one array into its block for
another. -/
lemma block_subst (cfg : Config) (g : NuFlavIntGroup) (A a : NpArray) :
    (groupNominalTransforms cfg A g).map
      (fun t => { t with xform_array := a, sum_inputs := cfg.sum_grouped_flavints }) =
    groupNominalTransforms cfg a g := by
  unfold groupNominalTransforms
  split
  · simp only [List.map_map]
    rfl
  · simp only [List.map_flatMap, List.map_map]
    rfl

lemma block_output_names {α β : Type} (cfg : Config) (g : NuFlavIntGroup)
    (A : α) (B : β) :
    (groupNominalTransforms cfg A g).map (fun t => t.output_name) =
    (groupNominalTransforms cfg B g).map (fun t => t.output_name) := by
  unfold groupNominalTransforms
  split
  · simp only [List.map_map]
    rfl
  · simp only [List.map_flatMap, List.map_map]
    rfl

lemma head_output_eq {α : Type} (cfg : Config) (g : NuFlavIntGroup) (A : α) :
    ((groupNominalTransforms cfg A g).head?).map (fun t => t.output_name) =
    firstEmittedOutput cfg g := by
  unfold firstEmittedOutput
  rw [← List.head?_map, ← List.head?_map, block_output_names cfg g A (0 : ℕ)]

lemma structure_of_block {α β : Type} (cfg : Config) (g : NuFlavIntGroup)
    (A : α) (B : β) :
    (groupNominalTransforms cfg A g).map structureOf =
    (groupNominalTransforms cfg B g).map structureOf := by
  unfold groupNominalTransforms
  split
  · simp only [List.map_map]
    rfl
  · simp only [List.map_flatMap, List.map_map]
    rfl

/-- A transform in group `g'`'s block matches group `g` in the rescale
loop exactly when `g = g'` (for well-formed configurations). -/
lemma matchB_mem_block (cfg : Config) {g g' : NuFlavIntGroup} {A : NpArray}
    {t : BinnedTensorTransform NpArray}
    (hout : outputsFromInit cfg)
    (hne : ∀ h ∈ cfg.transform_groups, h ≠ [])
    (hdisj : DisjointGroups cfg.transform_groups)
    (hinter : ∀ h ∈ cfg.transform_groups,
      ∃ i ∈ cfg.input_names, intersects h (flavGroup i) = true)
    (hg : g ∈ cfg.transform_groups) (hg' : g' ∈ cfg.transform_groups)
    (ht : t ∈ groupNominalTransforms cfg A g') :
    (matchB g t = true ↔ g = g') := by
  rw [outputsFromInit] at hout
  unfold groupNominalTransforms at ht
  split at ht
  case isTrue hs =>
    rcases List.mem_map.mp ht with ⟨o, ho, rfl⟩
    obtain ⟨ho1, ho2⟩ := List.mem_filter.mp ho
    have hogrp : o ∈ cfg.transform_groups := by
      rw [hout, if_pos hs] at ho1
      exact ho1
    rcases hinter g' hg' with ⟨i, hi, hint⟩
    have hiF : i ∈ cfg.input_names.filter
        (fun i => intersects g' (flavGroup i)) :=
      List.mem_filter.mpr ⟨hi, hint⟩
    have hxne : cfg.input_names.filter
        (fun i => intersects g' (flavGroup i)) ≠ [] := by
      intro hnil
      rw [hnil] at hiF
      cases hiF
    rcases List.exists_cons_of_ne_nil hxne with ⟨f₀, rest, hxin⟩
    have hf₀ : f₀ ∈ cfg.input_names.filter
        (fun i => intersects g' (flavGroup i)) := by
      rw [hxin]
      exact List.mem_cons_self f₀ rest
    have hf₀g' : f₀ ∈ flavsOf g' :=
      flav_mem_of_intersects (List.mem_filter.mp hf₀).2
    rw [matchB_eq_true_iff hxin]
    constructor
    · rintro ⟨-, hcg⟩
      by_contra hgg
      rcases List.exists_mem_of_ne_nil o (hne o hogrp) with ⟨fi, hfi⟩
      exact disjoint_of_mem hdisj hg hg' hgg fi
        (groupContains_iff.mp hcg fi hfi) (groupContains_iff.mp ho2 fi hfi)
    · rintro rfl
      exact ⟨hf₀g', ho2⟩
  case isFalse hs =>
    rcases List.mem_flatMap.mp ht with ⟨i, hi, hin⟩
    rcases List.mem_map.mp hin with ⟨o, ho, rfl⟩
    obtain ⟨hi1, hi2⟩ := List.mem_filter.mp hi
    obtain ⟨ho1, ho2⟩ := List.mem_filter.mp ho
    have hsing : ∃ fi : NuFlavInt, o = [fi] := by
      rw [hout, if_neg hs] at ho1
      rcases List.mem_map.mp ho1 with ⟨fi, _, rfl⟩
      exact ⟨fi, rfl⟩
    rcases hsing with ⟨fi, rfl⟩
    have hfig' : fi ∈ g' := groupContains_iff.mp ho2 fi (List.mem_cons_self fi [])
    rw [matchB_eq_true_iff (rfl : ([i] : List Flav) = i :: [])]
    constructor
    · rintro ⟨-, hcg⟩
      by_contra hgg
      exact disjoint_of_mem hdisj hg hg' hgg fi
        (groupContains_iff.mp hcg fi (List.mem_cons_self fi [])) hfig'
    · rintro rfl
      exact ⟨flav_mem_of_intersects hi2, ho2⟩

lemma flatMap_if_eq {γ : Type} {l : List NuFlavIntGroup} {g : NuFlavIntGroup}
    (hg : g ∈ l) (hnd : l.Nodup) (f : NuFlavIntGroup → List γ) :
    (l.flatMap (fun g' => if g = g' then f g' else [])) = f g := by
  induction l with
  | nil => cases hg
  | cons h t ih =>
    rcases List.nodup_cons.mp hnd with ⟨hht, hndt⟩
    rcases List.mem_cons.mp hg with rfl | hgt
    · rw [List.flatMap_cons, if_pos rfl]
      have htnil : t.flatMap (fun g' => if g = g' then f g' else []) = [] := by
        rw [List.flatMap_eq_nil_iff]
        intro g' hg'
        have hgg : g ≠ g' := fun hEq => hht (hEq ▸ hg')
        rw [if_neg hgg]
      rw [htnil, List.append_nil]
    · have hgh : g ≠ h := fun hEq => hht (hEq ▸ hgt)
      rw [List.flatMap_cons, if_neg hgh, List.nil_append]
      exact ih hgt hndt

/-- The rescale loop's filter over the full nominal list singles out
exactly the group's own block. -/
lemma filter_nominalOf (cfg : Config) (arrOf : NuFlavIntGroup → NpArray)
    (hout : outputsFromInit cfg)
    (hne : ∀ h ∈ cfg.transform_groups, h ≠ [])
    (hdisj : DisjointGroups cfg.transform_groups)
    (hinter : ∀ h ∈ cfg.transform_groups,
      ∃ i ∈ cfg.input_names, intersects h (flavGroup i) = true)
    {g : NuFlavIntGroup} (hg : g ∈ cfg.transform_groups) :
    (nominalOf cfg arrOf).filter (matchB g) =
      groupNominalTransforms cfg (arrOf g) g := by
  unfold nominalOf
  rw [List.filter_flatMap]
  have hstep : ∀ g' ∈ cfg.transform_groups,
      (groupNominalTransforms cfg (arrOf g') g').filter (matchB g) =
        if g = g' then groupNominalTransforms cfg (arrOf g') g' else [] := by
    intro g' hg'
    by_cases he : g = g'
    · rw [if_pos he]
      refine List.filter_eq_self.mpr ?_
      intro t ht
      exact (matchB_mem_block cfg hout hne hdisj hinter hg hg' ht).mpr he
    · rw [if_neg he]
      refine List.filter_eq_nil_iff.mpr ?_
      intro t ht hx
      exact he ((matchB_mem_block cfg hout hne hdisj hinter hg hg' ht).mp hx)
  rw [List.flatMap_def, List.map_congr_left hstep, ← List.flatMap_def]
  exact flatMap_if_eq hg (nodup_of_disjoint hne hdisj) _

lemma array_of_mem_nominalOf {cfg : Config} {arrOf : NuFlavIntGroup → NpArray}
    {t : BinnedTensorTransform NpArray} (ht : t ∈ nominalOf cfg arrOf) :
    ∃ g ∈ cfg.transform_groups, t.xform_array = arrOf g := by
  rcases List.mem_flatMap.mp ht with ⟨g, hg, htt⟩
  exact ⟨g, hg, xform_array_of_mem htt⟩

lemma input_names_ne_nil_of_mem {cfg : Config} {arrOf : NuFlavIntGroup → NpArray}
    (hinter : ∀ h ∈ cfg.transform_groups,
      ∃ i ∈ cfg.input_names, intersects h (flavGroup i) = true)
    {t : BinnedTensorTransform NpArray} (ht : t ∈ nominalOf cfg arrOf) :
    t.input_names ≠ [] := by
  rcases List.mem_flatMap.mp ht with ⟨g', hg', htt⟩
  unfold groupNominalTransforms at htt
  split at htt
  · rcases List.mem_map.mp htt with ⟨o, _, rfl⟩
    rcases hinter g' hg' with ⟨i, hi, hint⟩
    have hiF : i ∈ cfg.input_names.filter
        (fun i => intersects g' (flavGroup i)) :=
      List.mem_filter.mpr ⟨hi, hint⟩
    intro hnil
    have hnil' : cfg.input_names.filter
        (fun i => intersects g' (flavGroup i)) = [] := hnil
    rw [hnil'] at hiF
    cases hiF
  · rcases List.mem_flatMap.mp htt with ⟨i, _, hin⟩
    rcases List.mem_map.mp hin with ⟨o, _, rfl⟩
    exact List.cons_ne_nil i []

lemma rescaledArr_ref_ge (cfg : Config) (cnt : ℕ)
    (t₀ : BinnedTensorTransform NpArray) : cnt ≤ (rescaledArr cfg cnt t₀).ref := by
  unfold rescaledArr
  split_ifs <;> simp

lemma rescaledCnt_ge (cnt : ℕ) (t₀ : BinnedTensorTransform NpArray) :
    cnt ≤ rescaledCnt cnt t₀ := by
  unfold rescaledCnt
  split_ifs <;> omega

/-- The outer rescale loop over the groups, applied to the nominal list,
emits exactly the nominal blocks with each group's array replaced by a
freshly allocated one whose data is the first-match rescaling of the
group's nominal array. -/
lemma rescaleGroups_spec (cfg : Config) (arrOf : NuFlavIntGroup → NpArray)
    (hout : outputsFromInit cfg)
    (hne : ∀ h ∈ cfg.transform_groups, h ≠ [])
    (hdisj : DisjointGroups cfg.transform_groups)
    (hinter : ∀ h ∈ cfg.transform_groups,
      ∃ i ∈ cfg.input_names, intersects h (flavGroup i) = true)
    {gs : List NuFlavIntGroup}
    (hsub : ∀ g ∈ gs, g ∈ cfg.transform_groups) (hnd : gs.Nodup) (cnt : ℕ) :
    ∃ (cnt' : ℕ) (arrOf' : NuFlavIntGroup → NpArray),
      rescaleGroups cfg (nominalOf cfg arrOf) cnt gs =
        Except.ok (cnt', gs.flatMap (fun g =>
          groupNominalTransforms cfg (arrOf' g) g)) ∧
      cnt ≤ cnt' ∧
      ∀ g ∈ gs, cnt ≤ (arrOf' g).ref ∧
        (arrOf' g).data = rescaledDataOf cfg (arrOf g) g := by
  induction gs generalizing cnt with
  | nil =>
    exact ⟨cnt, fun g => ⟨cnt, rescaledDataOf cfg (arrOf g) g⟩, rfl, le_refl cnt,
      fun g hg => absurd hg (List.not_mem_nil g)⟩
  | cons g gs ih =>
    have hg : g ∈ cfg.transform_groups := hsub g (List.mem_cons_self g gs)
    have hsubt : ∀ h ∈ gs, h ∈ cfg.transform_groups :=
      fun h hh => hsub h (List.mem_cons_of_mem _ hh)
    rcases List.nodup_cons.mp hnd with ⟨hgns, hndt⟩
    have hinput : ∀ t ∈ nominalOf cfg arrOf, t.input_names ≠ [] :=
      fun t ht => input_names_ne_nil_of_mem hinter ht
    have hfil : (nominalOf cfg arrOf).filter (matchB g) =
        groupNominalTransforms cfg (arrOf g) g :=
      filter_nominalOf cfg arrOf hout hne hdisj hinter hg
    cases hB : groupNominalTransforms cfg (arrOf g) g with
    | nil =>
      have hloop := rescaleLoop_none_nil cfg g cnt hinput (hfil.trans hB)
      rcases ih hsubt hndt cnt with ⟨cnt₂, arrOf'', hrec, hle₂, hprops⟩
      refine ⟨cnt₂, fun h => if h = g
          then ⟨cnt, rescaledDataOf cfg (arrOf g) g⟩ else arrOf'' h, ?_, hle₂, ?_⟩
      · have hb0 : groupNominalTransforms cfg
            (⟨cnt, rescaledDataOf cfg (arrOf g) g⟩ : NpArray) g = [] := by
          rw [← block_subst cfg g (arrOf g) ⟨cnt, rescaledDataOf cfg (arrOf g) g⟩, hB]
          rfl
        have htail : gs.flatMap (fun h => groupNominalTransforms cfg
            (if h = g then (⟨cnt, rescaledDataOf cfg (arrOf g) g⟩ : NpArray)
             else arrOf'' h) h) =
            gs.flatMap (fun h => groupNominalTransforms cfg (arrOf'' h) h) := by
          rw [List.flatMap_def, List.flatMap_def]
          refine congrArg List.flatten (List.map_congr_left ?_)
          intro h hh
          have hhg : h ≠ g := fun hEq => hgns (hEq ▸ hh)
          rw [if_neg hhg]
        simp only [rescaleGroups, hloop, hrec, List.flatMap_cons, htail]
        simp [hb0]
      · intro h hh
        by_cases hhg : h = g
        · subst hhg
          dsimp only
          rw [if_pos rfl]
          exact ⟨le_refl cnt, rfl⟩
        · dsimp only
          rw [if_neg hhg]
          rcases List.mem_cons.mp hh with rfl | hht
          · exact absurd rfl hhg
          · exact hprops h hht
    | cons t₀ F =>
      have hloop := rescaleLoop_none_cons cfg g cnt hinput (hfil.trans hB)
      have ht₀mem : t₀ ∈ groupNominalTransforms cfg (arrOf g) g := by
        rw [hB]
        exact List.mem_cons_self t₀ F
      have harr : t₀.xform_array = arrOf g := xform_array_of_mem ht₀mem
      have hout₀ : firstEmittedOutput cfg g = some t₀.output_name := by
        rw [← head_output_eq cfg g (arrOf g), hB]
        rfl
      have hdata : (rescaledArr cfg cnt t₀).data =
          rescaledDataOf cfg (arrOf g) g := by
        unfold rescaledArr rescaledDataOf
        rw [hout₀, harr]
        cases hsp : specialChannel t₀.output_name <;> simp [hsp]
      rcases ih hsubt hndt (rescaledCnt cnt t₀) with ⟨cnt₂, arrOf'', hrec, hle₂, hprops⟩
      refine ⟨cnt₂, fun h => if h = g then rescaledArr cfg cnt t₀ else arrOf'' h,
        ?_, (rescaledCnt_ge cnt t₀).trans hle₂, ?_⟩
      · have hblk : ((nominalOf cfg arrOf).filter (matchB g)).map
            (fun t => { t with xform_array := rescaledArr cfg cnt t₀,
                               sum_inputs := cfg.sum_grouped_flavints }) =
            groupNominalTransforms cfg (rescaledArr cfg cnt t₀) g := by
          rw [hfil]
          exact block_subst cfg g (arrOf g) (rescaledArr cfg cnt t₀)
        have htail : gs.flatMap (fun h => groupNominalTransforms cfg
            (if h = g then rescaledArr cfg cnt t₀ else arrOf'' h) h) =
            gs.flatMap (fun h => groupNominalTransforms cfg (arrOf'' h) h) := by
          rw [List.flatMap_def, List.flatMap_def]
          refine congrArg List.flatten (List.map_congr_left ?_)
          intro h hh
          have hhg : h ≠ g := fun hEq => hgns (hEq ▸ hh)
          rw [if_neg hhg]
        simp only [rescaleGroups, hloop, hrec, List.flatMap_cons, htail]
        simp [hblk]
      · intro h hh
        by_cases hhg : h = g
        · subst hhg
          dsimp only
          rw [if_pos rfl]
          exact ⟨rescaledArr_ref_ge cfg cnt t₀, hdata⟩
        · dsimp only
          rw [if_neg hhg]
          rcases List.mem_cons.mp hh with rfl | hht
          · exact absurd rfl hhg
          · rcases hprops h hht with ⟨h1, h2⟩
            exact ⟨(rescaledCnt_ge cnt t₀).trans h1, h2⟩

/-- C8: the rescale phase leaves the nominal transform list untouched
(it is consumed read-only; in the allocation model no existing tag is
ever written) and emits a transform set with identical structural fields
(input names, output names, binnings, summing flags) whose arrays are
freshly allocated — every emitted array's tag differs from every
nominal array's tag, so no emitted array aliases the nominal cache. -/
theorem rescale_preserves_nominal_and_emits_fresh (cfg : Config)
    (arrOf : NuFlavIntGroup → NpArray) (cnt : ℕ)
    (hout : outputsFromInit cfg)
    (hne : ∀ h ∈ cfg.transform_groups, h ≠ [])
    (hdisj : DisjointGroups cfg.transform_groups)
    (hinter : ∀ h ∈ cfg.transform_groups,
      ∃ i ∈ cfg.input_names, intersects h (flavGroup i) = true)
    (href : ∀ t ∈ nominalOf cfg arrOf, t.xform_array.ref < cnt) :
    ∃ (cnt' : ℕ) (arrOf' : NuFlavIntGroup → NpArray),
      _compute_transforms cfg (nominalOf cfg arrOf) cnt =
        Except.ok (cnt', ⟨nominalOf cfg arrOf'⟩) ∧
      (nominalOf cfg arrOf').map structureOf =
        (nominalOf cfg arrOf).map structureOf ∧
      (∀ t' ∈ nominalOf cfg arrOf', ∀ t ∈ nominalOf cfg arrOf,
        t'.xform_array.ref ≠ t.xform_array.ref) ∧
      (∀ g ∈ cfg.transform_groups,
        (arrOf' g).data = rescaledDataOf cfg (arrOf g) g) := by
  rcases rescaleGroups_spec cfg arrOf hout hne hdisj hinter
      (fun g hg => hg) (nodup_of_disjoint hne hdisj) cnt with
    ⟨cnt', arrOf', hrun, hle, hprops⟩
  refine ⟨cnt', arrOf', ?_, ?_, ?_, fun g hg => (hprops g hg).2⟩
  · unfold _compute_transforms
    rw [hrun]
    rfl
  · unfold nominalOf
    rw [List.map_flatMap, List.map_flatMap]
    rw [List.flatMap_def, List.flatMap_def]
    refine congrArg List.flatten (List.map_congr_left ?_)
    intro g _
    exact structure_of_block cfg g (arrOf' g) (arrOf g)
  · intro t' ht' t ht
    rcases array_of_mem_nominalOf ht' with ⟨g, hg, ha'⟩
    have h1 : cnt ≤ t'.xform_array.ref := ha' ▸ (hprops g hg).1
    have h2 : t.xform_array.ref < cnt := href t ht
    omega

/-- Witness for C8 at the concrete unmerged `nutau` configuration with
nominal arrays tagged below the allocation counter. -/
theorem rescale_preserves_nominal_and_emits_fresh_witness :
    (outputsFromInit cfgCex ∧
      (∀ h ∈ cfgCex.transform_groups, h ≠ []) ∧
      DisjointGroups cfgCex.transform_groups ∧
      (∀ h ∈ cfgCex.transform_groups,
        ∃ i ∈ cfgCex.input_names, intersects h (flavGroup i) = true) ∧
      (∀ t ∈ nominalOf cfgCex (fun _ => ⟨0, [1, 2]⟩), t.xform_array.ref < 1)) ∧
    ∃ (cnt' : ℕ) (arrOf' : NuFlavIntGroup → NpArray),
      _compute_transforms cfgCex (nominalOf cfgCex (fun _ => ⟨0, [1, 2]⟩)) 1 =
        Except.ok (cnt', ⟨nominalOf cfgCex arrOf'⟩) ∧
      (nominalOf cfgCex arrOf').map structureOf =
        (nominalOf cfgCex (fun _ => ⟨0, [1, 2]⟩)).map structureOf ∧
      (∀ t' ∈ nominalOf cfgCex arrOf',
        ∀ t ∈ nominalOf cfgCex (fun _ => ⟨0, [1, 2]⟩),
        t'.xform_array.ref ≠ t.xform_array.ref) ∧
      (∀ g ∈ cfgCex.transform_groups,
        (arrOf' g).data = rescaledDataOf cfgCex ((fun _ => (⟨0, [1, 2]⟩ : NpArray)) g) g) :=
  ⟨⟨by unfold outputsFromInit; decide, by decide,
    by unfold DisjointGroups; decide, by decide, by decide⟩,
   rescale_preserves_nominal_and_emits_fresh cfgCex (fun _ => ⟨0, [1, 2]⟩) 1
     (by unfold outputsFromInit; decide) (by decide)
     (by unfold DisjointGroups; decide) (by decide) (by decide)⟩

/-- C1 (amended): the rescale phase computes one scaled array per group
from the group's *first* matching nominal transform — nominal data times
`aeff_scale * livetime_s`, and additionally times `nutau_cc_norm` if and
only if that first transform's output name is a special channel — and
stamps that same array onto *every* transform emitted for the group,
including ones whose own output name is not special. -/
theorem rescale_first_match_scaling (cfg : Config)
    (arrOf : NuFlavIntGroup → NpArray) (cnt : ℕ)
    (hout : outputsFromInit cfg)
    (hne : ∀ h ∈ cfg.transform_groups, h ≠ [])
    (hdisj : DisjointGroups cfg.transform_groups)
    (hinter : ∀ h ∈ cfg.transform_groups,
      ∃ i ∈ cfg.input_names, intersects h (flavGroup i) = true) :
    ∃ (cnt' : ℕ) (arrOf' : NuFlavIntGroup → NpArray),
      _compute_transforms cfg (nominalOf cfg arrOf) cnt =
        Except.ok (cnt', ⟨nominalOf cfg arrOf'⟩) ∧
      ∀ g ∈ cfg.transform_groups,
        ∀ t' ∈ groupNominalTransforms cfg (arrOf' g) g,
          t'.xform_array.data =
            (if (firstEmittedOutput cfg g).any specialChannel then
              ((arrOf g).data.map
                (fun x => x * (cfg.params.aeff_scale * cfg.params.livetime_s))).map
                (fun x => x * cfg.params.nutau_cc_norm)
            else (arrOf g).data.map
              (fun x => x * (cfg.params.aeff_scale * cfg.params.livetime_s))) := by
  rcases rescaleGroups_spec cfg arrOf hout hne hdisj hinter
      (fun g hg => hg) (nodup_of_disjoint hne hdisj) cnt with
    ⟨cnt', arrOf', hrun, hle, hprops⟩
  refine ⟨cnt', arrOf', ?_, ?_⟩
  · unfold _compute_transforms
    rw [hrun]
    rfl
  · intro g hg t' ht'
    rw [xform_array_of_mem ht', (hprops g hg).2]
    rfl

/-- Witness for the amended C1 at the concrete unmerged `nutau`
configuration. -/
theorem rescale_first_match_scaling_witness :
    (outputsFromInit cfgCex ∧
      (∀ h ∈ cfgCex.transform_groups, h ≠ []) ∧
      DisjointGroups cfgCex.transform_groups ∧
      (∀ h ∈ cfgCex.transform_groups,
        ∃ i ∈ cfgCex.input_names, intersects h (flavGroup i) = true)) ∧
    ∃ (cnt' : ℕ) (arrOf' : NuFlavIntGroup → NpArray),
      _compute_transforms cfgCex (nominalOf cfgCex (fun _ => ⟨0, [1, 12]⟩)) 2 =
        Except.ok (cnt', ⟨nominalOf cfgCex arrOf'⟩) ∧
      ∀ g ∈ cfgCex.transform_groups,
        ∀ t' ∈ groupNominalTransforms cfgCex (arrOf' g) g,
          t'.xform_array.data =
            (if (firstEmittedOutput cfgCex g).any specialChannel then
              (((fun _ => (⟨0, [1, 12]⟩ : NpArray)) g).data.map
                (fun x => x * (cfgCex.params.aeff_scale * cfgCex.params.livetime_s))).map
                (fun x => x * cfgCex.params.nutau_cc_norm)
            else ((fun _ => (⟨0, [1, 12]⟩ : NpArray)) g).data.map
              (fun x => x * (cfgCex.params.aeff_scale * cfgCex.params.livetime_s))) :=
  ⟨⟨by unfold outputsFromInit; decide, by decide,
    by unfold DisjointGroups; decide, by decide⟩,
   rescale_first_match_scaling cfgCex (fun _ => ⟨0, [1, 12]⟩) 2
     (by unfold outputsFromInit; decide) (by decide)
     (by unfold DisjointGroups; decide) (by decide)⟩

/-- Counterexample to C1 as stated: in the unmerged configuration over
the single group `nutau` (categories `nutau_cc`, `nutau_nc`), with
`aeff_scale = 1`, `livetime = 1 s`, `nutau_cc_norm = 2`, the nominal
phase emits arrays `[1/12]` for both output names; the rescale phase
then emits, for the output name `nutau_nc` — *not* a special channel —
the array `[1/6]`, i.e. the nominal array additionally multiplied by
`nutau_cc_norm`, contradicting the claimed "if and only if". -/
theorem rescale_per_transform_iff_counterexample :
    (_compute_nominal_transforms collabW cfgCex ⟨none, none⟩).2 =
      Except.ok ⟨[
        { input_names := [Flav.nutau], output_name := [⟨Flav.nutau, IntTy.cc⟩]
          input_binning := binW, output_binning := binW
          xform_array := [1/12], sum_inputs := false },
        { input_names := [Flav.nutau], output_name := [⟨Flav.nutau, IntTy.nc⟩]
          input_binning := binW, output_binning := binW
          xform_array := [1/12], sum_inputs := false }]⟩ ∧
    _compute_transforms cfgCex nomCex 2 =
      Except.ok (4, ⟨[
        { input_names := [Flav.nutau], output_name := [⟨Flav.nutau, IntTy.cc⟩]
          input_binning := binW, output_binning := binW
          xform_array := ⟨3, [1/6]⟩, sum_inputs := false },
        { input_names := [Flav.nutau], output_name := [⟨Flav.nutau, IntTy.nc⟩]
          input_binning := binW, output_binning := binW
          xform_array := ⟨3, [1/6]⟩, sum_inputs := false }]⟩) ∧
    specialChannel [⟨Flav.nutau, IntTy.nc⟩] = false ∧
    ([1/6] : List ℚ) ≠
      [1/12].map (fun x =>
        x * (cfgCex.params.aeff_scale * cfgCex.params.livetime_s)) := by
  refine ⟨?_, ?_, by decide, ?_⟩
  · norm_num +decide [_compute_nominal_transforms, load_events, nominalInputBinning,
      nominalOutputBinning, aeffTransformArray, missing_dims_vol,
      groupNominalTransforms, excess_dims, comp_units, collabW, cfgCex, binW,
      paramsW, groupNutau, MultiDimBinning.names, MultiDimBinning.bin_edges,
      intersects, groupContains, flavGroup, flavsOf, List.insertionSort]
  · norm_num [_compute_transforms, rescaleGroups, rescaleLoop, nomCex, cfgCex,
      paramsW, groupNutau, specialChannel, flavsOf, groupContains, binW]
  · norm_num [cfgCex, paramsW]

end PisaAeffHist
